import Mathlib

/-!
Verification of the redis_ffi client core: the incremental RESP reply
parser, the async connection callback machinery, the allocator facade and
the background event-loop lifecycle.

The repository ships the C headers (`read.h`, `async.h`, `alloc.h`,
`async_loop.h`); `hi_calloc` is the one function whose body is visible
(a `static inline` in `alloc.h`) and is embedded directly from source.
The parser and async-connection operations are declared in the headers but
their implementations are not part of the visible sources, so they are
modelled from the specification, as marked on each definition.
-/

namespace Redict

/-! ## Constants from include/read.h (visible source) -/

/-- Error code `REDICT_ERR_PROTOCOL` from read.h. -/
def REDICT_ERR_PROTOCOL : Nat := 4

/-- Error code `REDICT_ERR_OOM` from read.h. -/
def REDICT_ERR_OOM : Nat := 5

/-- Default multi-bulk element limit `REDICT_READER_MAX_ARRAY_ELEMENTS`
`((1LL<<32) - 1)` from read.h. -/
def REDICT_READER_MAX_ARRAY_ELEMENTS : Int := (1 <<< 32) - 1

/-! ## Allocator facade (embedded from lib/macos-arm64/include/alloc.h) -/

/-- `SIZE_MAX` on the 64-bit platforms these headers target. -/
def SIZE_MAX : Nat := 2 ^ 64 - 1

/-- Outcome of a `hi_calloc` call, distinguishing the three ways the
source body can behave: the unconditional guard division `SIZE_MAX / size`
divides by zero (undefined behavior in C), the guard triggers and the
function returns NULL without touching the allocator, or the configured
`callocFn` is invoked with the original (unwrapped) arguments. -/
inductive HiCallocResult where
  | ubDivByZero
  | null
  | callocCall (nmemb size : Nat)
  deriving DecidableEq, Repr

/-- Embedding of `hi_calloc` from alloc.h:
```
static inline void *hi_calloc(size_t nmemb, size_t size) {
    /* Overflow check as the user can specify any arbitrary allocator */
    if (SIZE_MAX / size < nmemb)
        return NULL;
    return hiredictAllocFns.callocFn(nmemb, size);
}
```
The source divides by `size` before any zero test (there is none), so the
total embedding marks `size = 0` as the undefined division; on `size ≠ 0`
it follows the source's guard exactly. -/
def hi_calloc (nmemb size : Nat) : HiCallocResult :=
  if size = 0 then .ubDivByZero
  else if SIZE_MAX / size < nmemb then .null
  else .callocCall nmemb size

/-! ## Reply values

Modelled from the spec: `ReplyValue` is "a tagged variant over {String,
Array, Integer, Nil, Status, Error, Double, Bool, Map, Set, Attribute,
Push, BigNumber, VerbatimString}", the type constants
`REDICT_REPLY_*` in read.h. Container variants own an ordered sequence of
child values; the parser builds the flat child sequence in arrival order.
Double values keep the raw textual payload (the C `createDouble` factory
also receives the raw bytes). -/

inductive RValue where
  | str (s : List Char)
  | arr (elems : List RValue)
  | int (n : Int)
  | nil
  | status (s : List Char)
  | errv (s : List Char)
  | dbl (raw : List Char)
  | boolv (b : Bool)
  | mapv (elems : List RValue)
  | setv (elems : List RValue)
  | attr (elems : List RValue)
  | push (elems : List RValue)
  | bignum (s : List Char)
  | verb (fmt : List Char) (s : List Char)

/-- Container (multi-bulk) reply discriminator. -/
def RValue.isContainer : RValue → Bool
  | .arr _ => true
  | .mapv _ => true
  | .setv _ => true
  | .attr _ => true
  | .push _ => true
  | _ => false

/-! ## Line and number scanning helpers -/

/-- Scan the input for the first CRLF; return the line content before it
and the remainder after it, or `none` when no complete CRLF is buffered
yet. -/
def takeLine : List Char → Option (List Char × List Char)
  | [] => none
  | [_] => none
  | c1 :: c2 :: rest =>
    if c1 = '\r' ∧ c2 = '\n' then some ([], rest)
    else (takeLine (c2 :: rest)).map fun p => (c1 :: p.1, p.2)

/-- Numeric value of a decimal digit character. -/
def digitVal (c : Char) : Nat := c.toNat - 48

/-- Decimal value of a digit string (most significant first). -/
def digitsToNat (l : List Char) : Nat :=
  l.foldl (fun a c => a * 10 + digitVal c) 0

/-- Parse a (possibly negative) decimal integer occupying the whole line;
`none` on an empty or non-numeric line. -/
def parseIntLine (l : List Char) : Option Int :=
  match l with
  | [] => none
  | c :: rest =>
    if c = '-' then
      if rest ≠ [] ∧ rest.all Char.isDigit then some (-(digitsToNat rest : Int))
      else none
    else if (c :: rest).all Char.isDigit then some ((digitsToNat (c :: rest) : Int))
    else none

/-- Decimal digit list of `n`, most significant first (fuel-indexed so the
definition is structural and computable by `decide`). -/
def digitsOfFuel : Nat → Nat → List Char
  | 0, _ => []
  | f + 1, n =>
    if n < 10 then [Char.ofNat (48 + n)]
    else digitsOfFuel f (n / 10) ++ [Char.ofNat (48 + n % 10)]

/-- Decimal digit list of `n`, most significant first. -/
def digitsOf (n : Nat) : List Char := digitsOfFuel (n + 1) n

/-! ## The incremental parser

Modelled from the spec: "a depth-first, resumable recursive-descent
decoder"; "read the type tag/header at the cursor; if incomplete, suspend
(return no reply yet) leaving cursor unmoved; scalar types are decoded
atomically once their length-delimited payload is fully buffered;
container types push a new frame recording the declared element count and
loop until that count is exhausted"; "Map doubles the nominal element
count"; "a declared element count exceeding the configured maximum
multi-bulk limit is a protocol error; a negative length on a string
denotes a null value"; "malformed type tag ... sets a terminal Protocol
error". The implementation's resumable frame stack is rendered as a pure
re-entrant parse of the buffered bytes: suspension returns `.more` and
leaves the state untouched, which realises "leaving cursor unmoved". -/

/-- Result of parsing one item: complete value plus unconsumed remainder,
suspension for more input, or a protocol failure carrying an error code. -/
inductive PR (α : Type) where
  | done (v : α) (rest : List Char)
  | more
  | fail (e : Nat)

/-- Parse a line-delimited scalar item whose payload is the whole line. -/
def lineItem (mk : List Char → RValue) (input : List Char) : PR RValue :=
  match takeLine input with
  | none => .more
  | some (l, r) => .done (mk l) r

/-- Parse an integer reply line. -/
def intItem (input : List Char) : PR RValue :=
  match takeLine input with
  | none => .more
  | some (l, r) =>
    match parseIntLine l with
    | none => .fail REDICT_ERR_PROTOCOL
    | some n => .done (.int n) r

/-- Parse a RESP3 boolean line (`t` or `f`). -/
def boolItem (input : List Char) : PR RValue :=
  match takeLine input with
  | none => .more
  | some (l, r) =>
    if l = ['t'] then .done (.boolv true) r
    else if l = ['f'] then .done (.boolv false) r
    else .fail REDICT_ERR_PROTOCOL

/-- Parse a RESP3 nil line. -/
def nilItem (input : List Char) : PR RValue :=
  match takeLine input with
  | none => .more
  | some (_, r) => .done .nil r

/-- Parse a bulk string: length line, then the length-delimited payload
followed by CRLF; a `-1` length denotes a null value. -/
def bulkItem (input : List Char) : PR RValue :=
  match takeLine input with
  | none => .more
  | some (l, r) =>
    match parseIntLine l with
    | none => .fail REDICT_ERR_PROTOCOL
    | some len =>
      if len = -1 then .done .nil r
      else if len < 0 then .fail REDICT_ERR_PROTOCOL
      else if r.length < len.toNat + 2 then .more
      else .done (.str (r.take len.toNat)) (r.drop (len.toNat + 2))

/-- Parse a verbatim string: like a bulk string, but the payload starts
with a three-character format tag and a colon. -/
def verbItem (input : List Char) : PR RValue :=
  match takeLine input with
  | none => .more
  | some (l, r) =>
    match parseIntLine l with
    | none => .fail REDICT_ERR_PROTOCOL
    | some len =>
      if len < 4 then .fail REDICT_ERR_PROTOCOL
      else if r.length < len.toNat + 2 then .more
      else
        .done (.verb ((r.take len.toNat).take 3) (((r.take len.toNat)).drop 4))
          (r.drop (len.toNat + 2))

/-- Dispatch a scalar type tag to its item parser; `none` when the tag is
not a scalar tag. -/
def scalarItem (tag : Char) (rest : List Char) : Option (PR RValue) :=
  if tag = '+' then some (lineItem .status rest)
  else if tag = '-' then some (lineItem .errv rest)
  else if tag = ':' then some (intItem rest)
  else if tag = ',' then some (lineItem .dbl rest)
  else if tag = '(' then some (lineItem .bignum rest)
  else if tag = '_' then some (nilItem rest)
  else if tag = '#' then some (boolItem rest)
  else if tag = '$' then some (bulkItem rest)
  else if tag = '=' then some (verbItem rest)
  else none

/-- Dispatch a container type tag to its constructor and element-count
multiplier (map entries count key and value); `none` when the tag is not a
container tag. -/
def aggOf (tag : Char) : Option ((List RValue → RValue) × Nat) :=
  if tag = '*' then some (.arr, 1)
  else if tag = '%' then some (.mapv, 2)
  else if tag = '~' then some (.setv, 1)
  else if tag = '|' then some (.attr, 1)
  else if tag = '>' then some (.push, 1)
  else none

mutual

/-- Parse one reply value from the input. `maxE` is the configured
multi-bulk element limit; the fuel argument only bounds recursion depth
and is irrelevant once large enough. -/
def parseValue (maxE : Int) : Nat → List Char → PR RValue
  | 0, _ => .more
  | _ + 1, [] => .more
  | fuel + 1, tag :: rest =>
    match scalarItem tag rest with
    | some res => res
    | none =>
      match aggOf tag with
      | none => .fail REDICT_ERR_PROTOCOL
      | some (mk, mult) =>
        match takeLine rest with
        | none => .more
        | some (l, r) =>
          match parseIntLine l with
          | none => .fail REDICT_ERR_PROTOCOL
          | some n =>
            if n = -1 then .done .nil r
            else if n < -1 then .fail REDICT_ERR_PROTOCOL
            else if maxE < n then .fail REDICT_ERR_PROTOCOL
            else
              match parseMulti maxE fuel (mult * n.toNat) r with
              | .done elems rest2 => .done (mk elems) rest2
              | .more => .more
              | .fail e => .fail e

/-- Parse `n` consecutive reply values (the children of a container). -/
def parseMulti (maxE : Int) : Nat → Nat → List Char → PR (List RValue)
  | 0, _, _ => .more
  | _ + 1, 0, input => .done [] input
  | fuel + 1, n + 1, input =>
    match parseValue maxE fuel input with
    | .done v rest =>
      match parseMulti maxE fuel n rest with
      | .done vs rest2 => .done (v :: vs) rest2
      | .more => .more
      | .fail e => .fail e
    | .more => .more
    | .fail e => .fail e

end

/-! ## The reader object

Modelled from the spec and the `redictReader` struct in read.h: the state
keeps the error flag (0 when none), the unconsumed buffered bytes, and the
configured multi-bulk element limit. `redictReaderFeed` appends bytes
(and, per read.c's contract, refuses to touch an errored reader);
`redictReaderGetReply` produces at most one fully-decoded top-level value,
returns "no reply yet" (`none` with the state unchanged) when
insufficient bytes are buffered, and stores a terminal error code on a
protocol failure. Consumed bytes are discarded, which renders the
cursor/compaction bookkeeping of the C struct. -/

structure RedictReader where
  err : Nat
  buf : List Char
  maxelements : Int
  deriving DecidableEq, Repr

/-- A fresh reader with the default element limit. -/
def redictReaderCreate : RedictReader :=
  ⟨0, [], REDICT_READER_MAX_ARRAY_ELEMENTS⟩

/-- Feed bytes to the reader: append to the buffer; an errored reader is
terminal and is left untouched. -/
def redictReaderFeed (r : RedictReader) (bytes : List Char) : RedictReader :=
  if r.err ≠ 0 then r else { r with buf := r.buf ++ bytes }

/-- Fuel that certainly covers any parse of the buffered bytes. -/
def readerFuel (r : RedictReader) : Nat := 2 * r.buf.length + 2

/-- Try to decode one reply from the buffered bytes. -/
def redictReaderGetReply (r : RedictReader) : Option RValue × RedictReader :=
  if r.err ≠ 0 then (none, r)
  else
    match parseValue r.maxelements (readerFuel r) r.buf with
    | .done v rest => (some v, { r with buf := rest })
    | .more => (none, r)
    | .fail e => (none, { r with err := e })

/-- Iterate `redictReaderGetReply`, collecting every decoded reply until
the reader suspends or errors; fuel-bounded (any fuel beyond the buffer
length is enough, since every decoded reply consumes at least one byte). -/
def drainFuel : Nat → RedictReader → List RValue × RedictReader
  | 0, r => ([], r)
  | k + 1, r =>
    match redictReaderGetReply r with
    | (some v, r1) =>
      let p := drainFuel k r1
      (v :: p.1, p.2)
    | (none, r1) => ([], r1)

/-- Drain every currently decodable reply from the reader. -/
def redictDrain (r : RedictReader) : List RValue × RedictReader :=
  drainFuel (r.buf.length + 1) r

/-- Feed successive byte chunks, draining after each feed (the reader
component of successive read events), collecting all decoded replies in
order. -/
def drainChunks (r : RedictReader) : List (List Char) → List RValue × RedictReader
  | [] => ([], r)
  | b :: bs =>
    let p := redictDrain (redictReaderFeed r b)
    let q := drainChunks p.2 bs
    (p.1 ++ q.1, q.2)

/-- Observational equivalence of reader states: equal error flags, and
equal states outright while no error is set (after a terminal error the
retained buffer is dead state and may differ). -/
def obsEq (a b : RedictReader) : Prop :=
  a.err = b.err ∧ (a.err = 0 → a = b)

/-! ## Async connection

Modelled from the spec and the `redictAsyncContext` struct in async.h:
the context owns the reader, the regular callback FIFO `replies`, the
subscription callback FIFO `sub.replies` and the output buffer. Callbacks
are identified by opaque tokens (`Nat`); the spec routes each completed
regular reply to the head of the regular FIFO. -/

/-- Status code `REDICT_OK` from read.h. -/
def REDICT_OK : Nat := 0

/-- Opaque identity of a registered callback record. -/
abbrev Callback := Nat

structure RedictAsyncContext where
  rd : RedictReader
  replies : List Callback
  subReplies : List Callback
  obuf : List Char

/-- A fresh connected context with empty queues and buffers. -/
def redictAsyncContextInit : RedictAsyncContext :=
  ⟨redictReaderCreate, [], [], []⟩

/-- Modelled from the spec: `redictAsyncFormattedCommand` "appends bytes
to the output buffer and pushes the callback record to the regular queue;
fails with OutOfMemory on allocation failure; must never partially
enqueue". The two Booleans are the allocation oracle for its two
allocation sites (callback-node allocation and output-buffer growth); on
any failure nothing is mutated and OutOfMemory is returned. -/
def redictAsyncFormattedCommand (nodeOk bufOk : Bool)
    (ac : RedictAsyncContext) (cmd : List Char) (cb : Callback) :
    Nat × RedictAsyncContext :=
  if nodeOk && bufOk then
    (REDICT_OK, { ac with obuf := ac.obuf ++ cmd, replies := ac.replies ++ [cb] })
  else (REDICT_ERR_OOM, ac)

/-- Enqueue a list of (command bytes, callback) pairs under a succeeding
allocator. -/
def enqueueAll (ac : RedictAsyncContext)
    (ps : List (List Char × Callback)) : RedictAsyncContext :=
  ps.foldl (fun a p => (redictAsyncFormattedCommand true true a p.1 p.2).2) ac

/-- Modelled from the spec: `redictAsyncHandleRead` "on data, feeds
ReplyParser, then repeatedly calls getReply; for each completed reply ...
pops the corresponding PendingCallback and invokes it". Returns the
updated context and the invocation trace (callback, decoded reply) of
this read event, in invocation order. -/
def redictAsyncHandleRead (ac : RedictAsyncContext) (bytes : List Char) :
    RedictAsyncContext × List (Callback × RValue) :=
  let p := redictDrain (redictReaderFeed ac.rd bytes)
  ({ ac with rd := p.2, replies := ac.replies.drop p.1.length },
   (ac.replies.take p.1.length).zip p.1)

/-- Deliver successive reads to the context, accumulating the full
invocation trace. -/
def processReads (ac : RedictAsyncContext) :
    List (List Char) → RedictAsyncContext × List (Callback × RValue)
  | [] => (ac, [])
  | b :: bs =>
    let p := redictAsyncHandleRead ac b
    let q := processReads p.1 bs
    (q.1, p.2 ++ q.2)

/-! ## Disconnect

Modelled from the spec: `redictAsyncDisconnect` "walks both callback
queues, invoking every still-pending callback with an error-carrying
reply ..., then notifies the disconnect callback slot exactly once". The
observable behaviour is the invocation trace. -/

/-- One observable callback invocation during teardown: a pending
callback invoked with an error-carrying reply, or the one-shot disconnect
notification. -/
inductive Invocation where
  | errCall (cb : Callback)
  | discNotify
  deriving DecidableEq, Repr

/-- Walk one callback queue front to back, invoking each still-pending
callback with an error-carrying reply. -/
def flushErrQueue : List Callback → List Invocation
  | [] => []
  | cb :: rest => .errCall cb :: flushErrQueue rest

/-- Modelled from the spec: teardown invokes the pending regular
callbacks, then the pending subscription callbacks, then the disconnect
slot exactly once. -/
def redictAsyncDisconnect (ac : RedictAsyncContext) : List Invocation :=
  flushErrQueue ac.replies ++ flushErrQueue ac.subReplies ++ [.discNotify]

/-! ## Background loop lifecycle

Modelled from the spec (async_loop.h declares the functions; their bodies
are not among the visible sources): `redis_async_start_loop_thread`
spawns a thread running the loop and allocates an opaque handle;
`redis_async_stop_loop_thread` "sets the stop flag, waits for the thread
to exit, and frees all associated resources", and per the spec "must be
idempotent and safe to call even if the loop already exited on its own".
The thread lifecycle is rendered sequentially: `threadLive` is whether
the loop thread is still running (joining an exited thread returns
immediately), `handleAllocated` is whether the opaque handle's resources
are still held. -/

structure LoopSys where
  stopFlag : Bool
  threadLive : Bool
  handleAllocated : Bool
  deriving DecidableEq, Repr

/-- Start the background loop: spawn the thread, allocate the handle. -/
def redis_async_start_loop_thread (flag : Bool) : LoopSys :=
  ⟨flag, true, true⟩

/-- The loop exits on its own (connection closed, error, or stop flag
observed). -/
def loopSelfExit (s : LoopSys) : LoopSys :=
  { s with threadLive := false }

/-- Stop the background loop: set the stop flag, join the thread (a no-op
when it already exited), release the handle; a further call on the
already-released handle does nothing. -/
def redis_async_stop_loop_thread (s : LoopSys) : LoopSys :=
  if s.handleAllocated then ⟨true, false, false⟩ else s

/-! ## Concrete scenario data -/

/-- Concrete reply bytes of the spec's worked scenario: an array of two,
the bulk string "foo" and the integer 42. -/
def c8bytes : List Char := "*2\r\n$3\r\nfoo\r\n:42\r\n".toList

/-- The same bytes fragmented one byte per chunk. -/
def c8chunks : List (List Char) := c8bytes.map fun c => [c]

/-- The decoded value of the scenario bytes. -/
def c8value : RValue := RValue.arr [RValue.str ['f', 'o', 'o'], RValue.int 42]

/-! ## Basic reader lemmas -/

theorem redictReaderFeed_err (r : RedictReader) (b : List Char) :
    (redictReaderFeed r b).err = r.err := by
  unfold redictReaderFeed
  split <;> rfl

theorem redictReaderFeed_of_err (r : RedictReader) (b : List Char)
    (h : r.err ≠ 0) : redictReaderFeed r b = r := by
  unfold redictReaderFeed
  simp [h]

theorem redictReaderFeed_of_ok (r : RedictReader) (b : List Char)
    (h : r.err = 0) :
    redictReaderFeed r b = { r with buf := r.buf ++ b } := by
  unfold redictReaderFeed
  simp [h]

theorem redictReaderGetReply_ok (r : RedictReader) (h : r.err = 0) :
    redictReaderGetReply r
      = match parseValue r.maxelements (readerFuel r) r.buf with
        | .done v rest => (some v, { r with buf := rest })
        | .more => (none, r)
        | .fail e => (none, { r with err := e }) := by
  unfold redictReaderGetReply
  rw [if_neg (by simp [h])]

theorem redictReaderFeed_feed (r : RedictReader) (b1 b2 : List Char) :
    redictReaderFeed (redictReaderFeed r b1) b2
      = redictReaderFeed r (b1 ++ b2) := by
  by_cases h : r.err = 0
  · rw [redictReaderFeed_of_ok _ _ h, redictReaderFeed_of_ok _ _ h,
      redictReaderFeed_of_ok _ _ (by exact h), List.append_assoc]
  · simp [redictReaderFeed_of_err _ _ h]

/-- Successive feeds append exactly the concatenation of the chunks: the
fold of `redictReaderFeed` over a chunk list equals one feed of the joined
bytes. -/
theorem foldl_feed_eq_feed_join (chunks : List (List Char)) (r : RedictReader) :
    List.foldl redictReaderFeed r chunks = redictReaderFeed r chunks.flatten := by
  induction chunks generalizing r with
  | nil =>
    by_cases h : r.err = 0
    · simp [redictReaderFeed_of_ok _ _ h]
    · simp [redictReaderFeed_of_err _ _ h]
  | cons c cs ih =>
    simp only [List.foldl_cons, List.flatten_cons]
    rw [ih, redictReaderFeed_feed]

/-- C1: feeding a complete, well-formed encoded container reply in
arbitrary consecutive chunks through successive feed calls and then
calling getReply yields the same decoded ReplyValue as feeding all bytes
in a single feed call. -/
theorem feed_fragmentation_invariant (bytes : List Char)
    (chunks : List (List Char)) (v : RValue)
    (hchunks : chunks.flatten = bytes)
    (hv : (redictReaderGetReply (redictReaderFeed redictReaderCreate bytes)).1 = some v)
    (_hc : v.isContainer = true) :
    (redictReaderGetReply (List.foldl redictReaderFeed redictReaderCreate chunks)).1
      = some v := by
  rw [foldl_feed_eq_feed_join, hchunks]
  exact hv

/-- Witness for C1: the scenario array fed one byte at a time decodes to
the same value as fed in one call. -/
theorem feed_fragmentation_invariant_witness :
    c8chunks.flatten = c8bytes
    ∧ (redictReaderGetReply (redictReaderFeed redictReaderCreate c8bytes)).1 = some c8value
    ∧ c8value.isContainer = true
    ∧ (redictReaderGetReply (List.foldl redictReaderFeed redictReaderCreate c8chunks)).1
        = some c8value :=
  ⟨rfl, rfl, rfl, feed_fragmentation_invariant c8bytes c8chunks c8value rfl rfl rfl⟩

/-- C8: feeding a fresh parser exactly `*2\r\n$3\r\nfoo\r\n:42\r\n` makes
getReply yield an Array with exactly the two children String "foo" and
Integer 42, consuming the whole buffer, and a further getReply on the
now-empty buffer returns "no reply yet" (no value, state unchanged, no
error). -/
theorem scenario_array_foo_int :
    (redictReaderGetReply (redictReaderFeed redictReaderCreate c8bytes)).1 = some c8value
    ∧ (redictReaderGetReply (redictReaderFeed redictReaderCreate c8bytes)).2.buf = []
    ∧ redictReaderGetReply ((redictReaderGetReply (redictReaderFeed redictReaderCreate c8bytes)).2)
        = (none, (redictReaderGetReply (redictReaderFeed redictReaderCreate c8bytes)).2)
    ∧ ((redictReaderGetReply (redictReaderFeed redictReaderCreate c8bytes)).2).err = 0 :=
  ⟨rfl, rfl, rfl, rfl⟩

/-- C9: an errored parser is terminal: feed leaves the state (hence the
error flag) untouched and getReply yields no value and leaves the state
(hence the error flag) untouched. -/
theorem reader_error_terminal (r : RedictReader) (b : List Char)
    (h : r.err ≠ 0) :
    redictReaderFeed r b = r ∧ redictReaderGetReply r = (none, r) := by
  refine ⟨redictReaderFeed_of_err r b h, ?_⟩
  unfold redictReaderGetReply
  simp [h]

/-- Witness for C9 at a concrete errored reader. -/
theorem reader_error_terminal_witness :
    (RedictReader.mk REDICT_ERR_PROTOCOL ['*'] 7).err ≠ 0
    ∧ redictReaderFeed (RedictReader.mk REDICT_ERR_PROTOCOL ['*'] 7) ['x']
        = RedictReader.mk REDICT_ERR_PROTOCOL ['*'] 7
    ∧ redictReaderGetReply (RedictReader.mk REDICT_ERR_PROTOCOL ['*'] 7)
        = (none, RedictReader.mk REDICT_ERR_PROTOCOL ['*'] 7) :=
  ⟨by decide,
   (reader_error_terminal (RedictReader.mk REDICT_ERR_PROTOCOL ['*'] 7) ['x'] (by decide)).1,
   (reader_error_terminal (RedictReader.mk REDICT_ERR_PROTOCOL ['*'] 7) ['x'] (by decide)).2⟩

/-- C5: whenever the mathematical product `nmemb * size` exceeds
`SIZE_MAX`, `hi_calloc` returns NULL and never reaches the configured
allocator with a wrapped size. -/
theorem hi_calloc_overflow_returns_null (nmemb size : Nat)
    (h : SIZE_MAX < nmemb * size) :
    hi_calloc nmemb size = .null := by
  have hs : size ≠ 0 := by
    rintro rfl
    simp at h
  unfold hi_calloc
  rw [if_neg hs, if_pos]
  exact (Nat.div_lt_iff_lt_mul (Nat.pos_of_ne_zero hs)).mpr h

/-- Witness for C5 at an overflowing pair. -/
theorem hi_calloc_overflow_returns_null_witness :
    SIZE_MAX < 2 ^ 63 * 4 ∧ hi_calloc (2 ^ 63) 4 = .null :=
  ⟨by norm_num [SIZE_MAX],
   hi_calloc_overflow_returns_null (2 ^ 63) 4 (by norm_num [SIZE_MAX])⟩

/-- C6: the guard of `hi_calloc` divides `SIZE_MAX` by `size` before any
zero check, so every call with `size = 0` performs the undefined division,
and the undefined-division branch of the total embedding is unreachable
exactly under the precondition `0 < size`. -/
theorem hi_calloc_guard_divides_before_zero_check :
    (∀ nmemb, hi_calloc nmemb 0 = .ubDivByZero)
    ∧ (∀ nmemb size, 0 < size → hi_calloc nmemb size ≠ .ubDivByZero) := by
  constructor
  · intro nmemb
    rfl
  · intro nmemb size hs
    unfold hi_calloc
    rw [if_neg (Nat.pos_iff_ne_zero.mp hs)]
    split <;> simp

/-- Witness for C6 at concrete inputs. -/
theorem hi_calloc_guard_divides_before_zero_check_witness :
    hi_calloc 7 0 = .ubDivByZero ∧ hi_calloc 7 8 ≠ .ubDivByZero :=
  ⟨hi_calloc_guard_divides_before_zero_check.1 7,
   hi_calloc_guard_divides_before_zero_check.2 7 8 (by decide)⟩

/-! ## Decimal digits round-trip -/

theorem digitsToNat_append_digit (a : List Char) (c : Char) :
    digitsToNat (a ++ [c]) = digitsToNat a * 10 + digitVal c := by
  unfold digitsToNat
  rw [List.foldl_append]
  rfl

theorem digitsOfFuel_spec (f : Nat) :
    ∀ n, n < f →
      digitsOfFuel f n ≠ []
      ∧ (digitsOfFuel f n).all Char.isDigit = true
      ∧ digitsToNat (digitsOfFuel f n) = n := by
  induction f with
  | zero =>
    intro n h
    omega
  | succ f ih =>
    intro n h
    by_cases h10 : n < 10
    · unfold digitsOfFuel
      rw [if_pos h10]
      refine ⟨by simp, ?_, ?_⟩
      · interval_cases n <;> decide
      · interval_cases n <;> decide
    · unfold digitsOfFuel
      rw [if_neg h10]
      have hdiv : n / 10 < f := by
        have h1 : n / 10 < n := Nat.div_lt_self (by omega) (by omega)
        omega
      obtain ⟨hne, hall, hval⟩ := ih (n / 10) hdiv
      have hm : n % 10 < 10 := Nat.mod_lt _ (by omega)
      have hdd : ∀ m, m < 10 → (Char.ofNat (48 + m)).isDigit = true
          ∧ digitVal (Char.ofNat (48 + m)) = m := by decide
      refine ⟨by simp, ?_, ?_⟩
      · rw [List.all_append]
        simp only [Bool.and_eq_true]
        exact ⟨hall, by simp [(hdd _ hm).1]⟩
      · rw [digitsToNat_append_digit, hval, (hdd _ hm).2]
        omega

theorem parseIntLine_digitsOf (n : Nat) :
    parseIntLine (digitsOf n) = some (n : Int) := by
  obtain ⟨hne, hall, hval⟩ := digitsOfFuel_spec (n + 1) n (Nat.lt_succ_self n)
  unfold digitsOf
  cases hl : digitsOfFuel (n + 1) n with
  | nil => exact absurd hl hne
  | cons c rest =>
    rw [hl] at hall hval
    have hc : c.isDigit = true := List.all_eq_true.mp hall c (by simp)
    have hcne : ¬ c = '-' := by
      intro hEq
      rw [hEq] at hc
      exact absurd hc (by decide)
    simp only [parseIntLine]
    rw [if_neg hcne, if_pos hall, hval]

theorem takeLine_of_no_cr (l rest : List Char) (h : ∀ c ∈ l, c ≠ '\r') :
    takeLine (l ++ '\r' :: '\n' :: rest) = some (l, rest) := by
  induction l with
  | nil => simp [takeLine]
  | cons c l' ih =>
    have hc : c ≠ '\r' := h c (by simp)
    have h' : ∀ x ∈ l', x ≠ '\r' := fun x hx => h x (by simp [hx])
    cases l' with
    | nil =>
      simp only [List.nil_append, List.cons_append]
      unfold takeLine
      rw [if_neg (by simp [hc])]
      simp [takeLine]
    | cons d l'' =>
      simp only [List.cons_append] at ih ⊢
      unfold takeLine
      rw [if_neg (by simp [hc]), ih h']
      rfl

/-! ## Container header parsing -/

theorem parseValue_nil (maxE : Int) (f : Nat) : parseValue maxE f [] = .more := by
  cases f <;> rfl

theorem aggOf_cases (tag : Char) (mk : List RValue → RValue) (mult : Nat)
    (h : aggOf tag = some (mk, mult)) :
    0 < mult ∧ ∀ rest, scalarItem tag rest = none := by
  unfold aggOf at h
  split_ifs at h with h1 h2 h3 h4 h5 <;>
    first
      | exact Option.noConfusion h
      | (subst_vars; cases h; exact ⟨by decide, fun _ => rfl⟩)

/-- Parsing a bare container header `tag<digits of n>\r\n`: a count above
the configured limit is a protocol failure; otherwise the parse either
completes (empty container) or suspends for the declared children. -/
theorem parseValue_header (maxE : Int) (fuel : Nat) (tag : Char)
    (mk : List RValue → RValue) (mult n : Nat)
    (hagg : aggOf tag = some (mk, mult)) :
    parseValue maxE (fuel + 2) (tag :: (digitsOf n ++ '\r' :: '\n' :: []))
      = if maxE < (n : Int) then .fail REDICT_ERR_PROTOCOL
        else if n = 0 then .done (mk []) [] else .more := by
  obtain ⟨hmult, hscal⟩ := aggOf_cases tag mk mult hagg
  obtain ⟨hne, hall, hval⟩ := digitsOfFuel_spec (n + 1) n (Nat.lt_succ_self n)
  have hnocr : ∀ c ∈ digitsOf n, c ≠ '\r' := by
    intro c hcmem hEq
    have hc := List.all_eq_true.mp hall c hcmem
    rw [hEq] at hc
    exact absurd hc (by decide)
  have htl : takeLine (digitsOf n ++ '\r' :: '\n' :: []) = some (digitsOf n, []) :=
    takeLine_of_no_cr _ _ hnocr
  have hpil : parseIntLine (digitsOf n) = some (n : Int) := parseIntLine_digitsOf n
  rw [parseValue, hscal _, hagg]
  simp only [htl, hpil, Int.toNat_natCast]
  have h1 : ¬((n : Int) = -1) := by omega
  have h2 : ¬((n : Int) < -1) := by omega
  rw [if_neg h1, if_neg h2]
  by_cases hmax : maxE < (n : Int)
  · rw [if_pos hmax, if_pos hmax]
  · rw [if_neg hmax, if_neg hmax]
    by_cases hn : n = 0
    · subst hn
      rw [if_pos rfl, Nat.mul_zero]
      rfl
    · rw [if_neg hn]
      obtain ⟨m, hm⟩ : ∃ m, mult * n = m + 1 :=
        ⟨mult * n - 1, by
          have := Nat.mul_pos hmult (Nat.pos_of_ne_zero hn)
          omega⟩
      rw [hm, parseMulti, parseValue_nil]

/-- The error state after feeding a fresh default reader one bare
container header. -/
theorem getReply_header_err (tag : Char) (mk : List RValue → RValue)
    (mult n : Nat) (hagg : aggOf tag = some (mk, mult)) :
    ((redictReaderGetReply (redictReaderFeed redictReaderCreate
        (tag :: (digitsOf n ++ '\r' :: '\n' :: [])))).2).err
      = if REDICT_READER_MAX_ARRAY_ELEMENTS.toNat < n then REDICT_ERR_PROTOCOL
        else 0 := by
  have hfeed : redictReaderFeed redictReaderCreate
      (tag :: (digitsOf n ++ '\r' :: '\n' :: []))
        = { err := 0, buf := tag :: (digitsOf n ++ '\r' :: '\n' :: []),
            maxelements := REDICT_READER_MAX_ARRAY_ELEMENTS } := by
    simp [redictReaderFeed, redictReaderCreate]
  rw [hfeed, redictReaderGetReply_ok _ rfl]
  simp only [readerFuel]
  rw [parseValue_header REDICT_READER_MAX_ARRAY_ELEMENTS _ tag mk mult n hagg]
  have hcast : REDICT_READER_MAX_ARRAY_ELEMENTS < (n : Int)
      ↔ REDICT_READER_MAX_ARRAY_ELEMENTS.toNat < n := by
    have h32n : REDICT_READER_MAX_ARRAY_ELEMENTS.toNat = 4294967295 := by decide
    have h32 : REDICT_READER_MAX_ARRAY_ELEMENTS = (4294967295 : Int) := by decide
    rw [h32n, h32]
    omega
  by_cases hmax : REDICT_READER_MAX_ARRAY_ELEMENTS.toNat < n
  · rw [if_pos (hcast.mpr hmax), if_pos hmax]
  · rw [if_neg (fun hx => hmax (hcast.mp hx)), if_neg hmax]
    by_cases hn : n = 0
    · rw [if_pos hn]
    · rw [if_neg hn]

/-- C4: for every container tag and declared element count at most the
configured maximum (the default `(1<<32)-1`), parsing the container
header leaves the parser non-terminal (`err = 0`); for every count
strictly exceeding the maximum, the parser enters the terminal Protocol
error state. -/
theorem container_count_limit (tag : Char) (n : Nat)
    (htag : tag ∈ (['*', '%', '~', '|', '>'] : List Char)) :
    (n ≤ REDICT_READER_MAX_ARRAY_ELEMENTS.toNat →
      ((redictReaderGetReply (redictReaderFeed redictReaderCreate
          (tag :: (digitsOf n ++ '\r' :: '\n' :: [])))).2).err = 0)
    ∧ (REDICT_READER_MAX_ARRAY_ELEMENTS.toNat < n →
      ((redictReaderGetReply (redictReaderFeed redictReaderCreate
          (tag :: (digitsOf n ++ '\r' :: '\n' :: [])))).2).err
        = REDICT_ERR_PROTOCOL) := by
  have hmain : ∀ (mk : List RValue → RValue) (mult : Nat),
      aggOf tag = some (mk, mult) →
      (n ≤ REDICT_READER_MAX_ARRAY_ELEMENTS.toNat →
        ((redictReaderGetReply (redictReaderFeed redictReaderCreate
            (tag :: (digitsOf n ++ '\r' :: '\n' :: [])))).2).err = 0)
      ∧ (REDICT_READER_MAX_ARRAY_ELEMENTS.toNat < n →
        ((redictReaderGetReply (redictReaderFeed redictReaderCreate
            (tag :: (digitsOf n ++ '\r' :: '\n' :: [])))).2).err
          = REDICT_ERR_PROTOCOL) := by
    intro mk mult hagg
    constructor
    · intro hle
      rw [getReply_header_err tag mk mult n hagg, if_neg (by omega)]
    · intro hgt
      rw [getReply_header_err tag mk mult n hagg, if_pos hgt]
  fin_cases htag
  · exact hmain RValue.arr 1 rfl
  · exact hmain RValue.mapv 2 rfl
  · exact hmain RValue.setv 1 rfl
  · exact hmain RValue.attr 1 rfl
  · exact hmain RValue.push 1 rfl

/-- Witness for C4: count 5 keeps the parser non-terminal, count `1<<32`
is a protocol error. -/
theorem container_count_limit_witness :
    ('*' ∈ (['*', '%', '~', '|', '>'] : List Char))
    ∧ (5 : Nat) ≤ REDICT_READER_MAX_ARRAY_ELEMENTS.toNat
    ∧ ((redictReaderGetReply (redictReaderFeed redictReaderCreate
        ('*' :: (digitsOf 5 ++ '\r' :: '\n' :: [])))).2).err = 0
    ∧ REDICT_READER_MAX_ARRAY_ELEMENTS.toNat < 4294967296
    ∧ ((redictReaderGetReply (redictReaderFeed redictReaderCreate
        ('*' :: (digitsOf 4294967296 ++ '\r' :: '\n' :: [])))).2).err
      = REDICT_ERR_PROTOCOL :=
  ⟨by decide, by decide,
   (container_count_limit '*' 5 (by decide)).1 (by decide),
   by decide,
   (container_count_limit '*' 4294967296 (by decide)).2 (by decide)⟩

/-! ## Stream lemmas: takeLine under append -/

theorem takeLine_structure (x : List Char) :
    ∀ l r, takeLine x = some (l, r) → x = l ++ '\r' :: '\n' :: r := by
  induction x with
  | nil =>
    intro l r h
    simp [takeLine] at h
  | cons c1 x' ih =>
    intro l r h
    cases x' with
    | nil => simp [takeLine] at h
    | cons c2 x'' =>
      rw [takeLine] at h
      by_cases hcr : c1 = '\r' ∧ c2 = '\n'
      · rw [if_pos hcr] at h
        simp at h
        obtain ⟨hl, hr⟩ := h
        obtain ⟨hc1, hc2⟩ := hcr
        subst hl
        subst hr
        subst hc1
        subst hc2
        rfl
      · rw [if_neg hcr] at h
        cases htl : takeLine (c2 :: x'') with
        | none =>
          rw [htl] at h
          simp at h
        | some p =>
          obtain ⟨p1, p2⟩ := p
          rw [htl] at h
          simp at h
          obtain ⟨hl, hr⟩ := h
          have hx := ih p1 p2 htl
          subst hl
          subst hr
          simp only [List.cons_append]
          rw [hx]

theorem takeLine_append (x y : List Char) :
    ∀ l r, takeLine x = some (l, r) → takeLine (x ++ y) = some (l, r ++ y) := by
  induction x with
  | nil =>
    intro l r h
    simp [takeLine] at h
  | cons c1 x' ih =>
    intro l r h
    cases x' with
    | nil => simp [takeLine] at h
    | cons c2 x'' =>
      rw [takeLine] at h
      simp only [List.cons_append]
      rw [takeLine]
      by_cases hcr : c1 = '\r' ∧ c2 = '\n'
      · rw [if_pos hcr] at h
        rw [if_pos hcr]
        simp at h
        obtain ⟨hl, hr⟩ := h
        subst hl
        subst hr
        rfl
      · rw [if_neg hcr] at h
        rw [if_neg hcr]
        cases htl : takeLine (c2 :: x'') with
        | none =>
          rw [htl] at h
          simp at h
        | some p =>
          obtain ⟨p1, p2⟩ := p
          rw [htl] at h
          simp at h
          obtain ⟨hl, hr⟩ := h
          rw [show c2 :: (x'' ++ y) = (c2 :: x'') ++ y from rfl, ih p1 p2 htl]
          simp [hl, hr]

theorem takeLine_length (x l r : List Char) (h : takeLine x = some (l, r)) :
    r.length + 2 ≤ x.length := by
  have hx := takeLine_structure x l r h
  rw [hx]
  simp

/-! ## Stream lemmas: scalar items -/

theorem lineItem_append_done (mk : List Char → RValue) (x y : List Char)
    (v : RValue) (r2 : List Char) (h : lineItem mk x = .done v r2) :
    lineItem mk (x ++ y) = .done v (r2 ++ y) := by
  unfold lineItem at h ⊢
  cases htl : takeLine x with
  | none => simp [htl] at h
  | some p =>
    obtain ⟨l, r⟩ := p
    simp [htl] at h
    rw [takeLine_append x y l r htl]
    simp [h.1, h.2]

theorem lineItem_not_fail (mk : List Char → RValue) (x : List Char) (e : Nat) :
    lineItem mk x ≠ .fail e := by
  unfold lineItem
  cases htl : takeLine x with
  | none => simp
  | some p =>
    obtain ⟨l, r⟩ := p
    simp

theorem lineItem_done_length (mk : List Char → RValue) (x : List Char)
    (v : RValue) (r2 : List Char) (h : lineItem mk x = .done v r2) :
    r2.length ≤ x.length := by
  unfold lineItem at h
  cases htl : takeLine x with
  | none => simp [htl] at h
  | some p =>
    obtain ⟨l, r⟩ := p
    simp [htl] at h
    have hlen := takeLine_length x l r htl
    obtain ⟨hv, hr⟩ := h
    subst hr
    omega

theorem intItem_append_done (x y : List Char) (v : RValue) (r2 : List Char)
    (h : intItem x = .done v r2) : intItem (x ++ y) = .done v (r2 ++ y) := by
  unfold intItem at h ⊢
  cases htl : takeLine x with
  | none => simp [htl] at h
  | some p =>
    obtain ⟨l, r⟩ := p
    simp only [htl] at h
    simp only [takeLine_append x y l r htl]
    cases hpil : parseIntLine l with
    | none => simp [hpil] at h
    | some n =>
      simp only [hpil] at h ⊢
      cases h
      rfl

theorem intItem_append_fail (x y : List Char) (e : Nat)
    (h : intItem x = .fail e) : intItem (x ++ y) = .fail e := by
  unfold intItem at h ⊢
  cases htl : takeLine x with
  | none => simp [htl] at h
  | some p =>
    obtain ⟨l, r⟩ := p
    simp only [htl] at h
    simp only [takeLine_append x y l r htl]
    cases hpil : parseIntLine l with
    | none =>
      simp only [hpil] at h ⊢
      exact h
    | some n => simp [hpil] at h

theorem intItem_done_length (x : List Char) (v : RValue) (r2 : List Char)
    (h : intItem x = .done v r2) : r2.length ≤ x.length := by
  unfold intItem at h
  cases htl : takeLine x with
  | none => simp [htl] at h
  | some p =>
    obtain ⟨l, r⟩ := p
    simp only [htl] at h
    have hlen := takeLine_length x l r htl
    cases hpil : parseIntLine l with
    | none => simp [hpil] at h
    | some n =>
      simp only [hpil] at h
      cases h
      omega

theorem boolItem_append_done (x y : List Char) (v : RValue) (r2 : List Char)
    (h : boolItem x = .done v r2) : boolItem (x ++ y) = .done v (r2 ++ y) := by
  unfold boolItem at h ⊢
  cases htl : takeLine x with
  | none => simp [htl] at h
  | some p =>
    obtain ⟨l, r⟩ := p
    simp only [htl] at h
    simp only [takeLine_append x y l r htl]
    by_cases h1 : l = ['t']
    · rw [if_pos h1] at h ⊢
      cases h
      rfl
    · rw [if_neg h1] at h ⊢
      by_cases h2 : l = ['f']
      · rw [if_pos h2] at h ⊢
        cases h
        rfl
      · rw [if_neg h2] at h
        exact absurd h (by simp)

theorem boolItem_append_fail (x y : List Char) (e : Nat)
    (h : boolItem x = .fail e) : boolItem (x ++ y) = .fail e := by
  unfold boolItem at h ⊢
  cases htl : takeLine x with
  | none => simp [htl] at h
  | some p =>
    obtain ⟨l, r⟩ := p
    simp only [htl] at h
    simp only [takeLine_append x y l r htl]
    by_cases h1 : l = ['t']
    · rw [if_pos h1] at h
      exact absurd h (by simp)
    · rw [if_neg h1] at h ⊢
      by_cases h2 : l = ['f']
      · rw [if_pos h2] at h
        exact absurd h (by simp)
      · rw [if_neg h2] at h ⊢
        exact h

theorem boolItem_done_length (x : List Char) (v : RValue) (r2 : List Char)
    (h : boolItem x = .done v r2) : r2.length ≤ x.length := by
  unfold boolItem at h
  cases htl : takeLine x with
  | none => simp [htl] at h
  | some p =>
    obtain ⟨l, r⟩ := p
    simp only [htl] at h
    have hlen := takeLine_length x l r htl
    by_cases h1 : l = ['t']
    · rw [if_pos h1] at h
      cases h
      omega
    · rw [if_neg h1] at h
      by_cases h2 : l = ['f']
      · rw [if_pos h2] at h
        cases h
        omega
      · rw [if_neg h2] at h
        exact absurd h (by simp)

theorem nilItem_append_done (x y : List Char) (v : RValue) (r2 : List Char)
    (h : nilItem x = .done v r2) : nilItem (x ++ y) = .done v (r2 ++ y) := by
  unfold nilItem at h ⊢
  cases htl : takeLine x with
  | none => simp [htl] at h
  | some p =>
    obtain ⟨l, r⟩ := p
    simp only [htl] at h
    simp only [takeLine_append x y l r htl]
    cases h
    rfl

theorem nilItem_not_fail (x : List Char) (e : Nat) : nilItem x ≠ .fail e := by
  unfold nilItem
  cases htl : takeLine x with
  | none => simp
  | some p =>
    obtain ⟨l, r⟩ := p
    simp

theorem nilItem_done_length (x : List Char) (v : RValue) (r2 : List Char)
    (h : nilItem x = .done v r2) : r2.length ≤ x.length := by
  unfold nilItem at h
  cases htl : takeLine x with
  | none => simp [htl] at h
  | some p =>
    obtain ⟨l, r⟩ := p
    simp only [htl] at h
    have hlen := takeLine_length x l r htl
    cases h
    omega

theorem bulkItem_append_done (x y : List Char) (v : RValue) (r2 : List Char)
    (h : bulkItem x = .done v r2) : bulkItem (x ++ y) = .done v (r2 ++ y) := by
  unfold bulkItem at h ⊢
  cases htl : takeLine x with
  | none => simp [htl] at h
  | some p =>
    obtain ⟨l, r⟩ := p
    simp only [htl] at h
    simp only [takeLine_append x y l r htl]
    cases hpil : parseIntLine l with
    | none => simp [hpil] at h
    | some len =>
      simp only [hpil] at h ⊢
      by_cases h1 : len = -1
      · rw [if_pos h1] at h ⊢
        cases h
        rfl
      · rw [if_neg h1] at h ⊢
        by_cases h2 : len < 0
        · rw [if_pos h2] at h
          exact absurd h (by simp)
        · rw [if_neg h2] at h ⊢
          by_cases h3 : r.length < len.toNat + 2
          · rw [if_pos h3] at h
            exact absurd h (by simp)
          · rw [if_neg h3] at h
            have h3' : ¬ ((r ++ y).length < len.toNat + 2) := by
              simp only [List.length_append]
              omega
            rw [if_neg h3']
            have hle1 : len.toNat ≤ r.length := by omega
            have hle2 : len.toNat + 2 ≤ r.length := by omega
            rw [List.take_append_of_le_length hle1,
              List.drop_append_of_le_length hle2]
            cases h
            rfl

theorem bulkItem_append_fail (x y : List Char) (e : Nat)
    (h : bulkItem x = .fail e) : bulkItem (x ++ y) = .fail e := by
  unfold bulkItem at h ⊢
  cases htl : takeLine x with
  | none => simp [htl] at h
  | some p =>
    obtain ⟨l, r⟩ := p
    simp only [htl] at h
    simp only [takeLine_append x y l r htl]
    cases hpil : parseIntLine l with
    | none =>
      simp only [hpil] at h ⊢
      exact h
    | some len =>
      simp only [hpil] at h ⊢
      by_cases h1 : len = -1
      · rw [if_pos h1] at h
        exact absurd h (by simp)
      · rw [if_neg h1] at h ⊢
        by_cases h2 : len < 0
        · rw [if_pos h2] at h ⊢
          exact h
        · rw [if_neg h2] at h ⊢
          by_cases h3 : r.length < len.toNat + 2
          · rw [if_pos h3] at h
            exact absurd h (by simp)
          · rw [if_neg h3] at h
            exact absurd h (by simp)

theorem bulkItem_done_length (x : List Char) (v : RValue) (r2 : List Char)
    (h : bulkItem x = .done v r2) : r2.length ≤ x.length := by
  unfold bulkItem at h
  cases htl : takeLine x with
  | none => simp [htl] at h
  | some p =>
    obtain ⟨l, r⟩ := p
    simp only [htl] at h
    have hlen := takeLine_length x l r htl
    cases hpil : parseIntLine l with
    | none => simp [hpil] at h
    | some len =>
      simp only [hpil] at h
      by_cases h1 : len = -1
      · rw [if_pos h1] at h
        cases h
        omega
      · rw [if_neg h1] at h
        by_cases h2 : len < 0
        · rw [if_pos h2] at h
          exact absurd h (by simp)
        · rw [if_neg h2] at h
          by_cases h3 : r.length < len.toNat + 2
          · rw [if_pos h3] at h
            exact absurd h (by simp)
          · rw [if_neg h3] at h
            cases h
            simp only [List.length_drop]
            omega

theorem verbItem_append_done (x y : List Char) (v : RValue) (r2 : List Char)
    (h : verbItem x = .done v r2) : verbItem (x ++ y) = .done v (r2 ++ y) := by
  unfold verbItem at h ⊢
  cases htl : takeLine x with
  | none => simp [htl] at h
  | some p =>
    obtain ⟨l, r⟩ := p
    simp only [htl] at h
    simp only [takeLine_append x y l r htl]
    cases hpil : parseIntLine l with
    | none => simp [hpil] at h
    | some len =>
      simp only [hpil] at h ⊢
      by_cases h1 : len < 4
      · rw [if_pos h1] at h
        exact absurd h (by simp)
      · rw [if_neg h1] at h ⊢
        by_cases h3 : r.length < len.toNat + 2
        · rw [if_pos h3] at h
          exact absurd h (by simp)
        · rw [if_neg h3] at h
          have h3' : ¬ ((r ++ y).length < len.toNat + 2) := by
            simp only [List.length_append]
            omega
          rw [if_neg h3']
          have hle1 : len.toNat ≤ r.length := by omega
          have hle2 : len.toNat + 2 ≤ r.length := by omega
          rw [List.take_append_of_le_length hle1,
            List.drop_append_of_le_length hle2]
          cases h
          rfl

theorem verbItem_append_fail (x y : List Char) (e : Nat)
    (h : verbItem x = .fail e) : verbItem (x ++ y) = .fail e := by
  unfold verbItem at h ⊢
  cases htl : takeLine x with
  | none => simp [htl] at h
  | some p =>
    obtain ⟨l, r⟩ := p
    simp only [htl] at h
    simp only [takeLine_append x y l r htl]
    cases hpil : parseIntLine l with
    | none =>
      simp only [hpil] at h ⊢
      exact h
    | some len =>
      simp only [hpil] at h ⊢
      by_cases h1 : len < 4
      · rw [if_pos h1] at h ⊢
        exact h
      · rw [if_neg h1] at h ⊢
        by_cases h3 : r.length < len.toNat + 2
        · rw [if_pos h3] at h
          exact absurd h (by simp)
        · rw [if_neg h3] at h
          exact absurd h (by simp)

theorem verbItem_done_length (x : List Char) (v : RValue) (r2 : List Char)
    (h : verbItem x = .done v r2) : r2.length ≤ x.length := by
  unfold verbItem at h
  cases htl : takeLine x with
  | none => simp [htl] at h
  | some p =>
    obtain ⟨l, r⟩ := p
    simp only [htl] at h
    have hlen := takeLine_length x l r htl
    cases hpil : parseIntLine l with
    | none => simp [hpil] at h
    | some len =>
      simp only [hpil] at h
      by_cases h1 : len < 4
      · rw [if_pos h1] at h
        exact absurd h (by simp)
      · rw [if_neg h1] at h
        by_cases h3 : r.length < len.toNat + 2
        · rw [if_pos h3] at h
          exact absurd h (by simp)
        · rw [if_neg h3] at h
          cases h
          simp only [List.length_drop]
          omega

/-! ## Stream lemmas: scalar dispatch -/

theorem scalarItem_none (tag : Char) (x : List Char)
    (h : scalarItem tag x = none) : ∀ z, scalarItem tag z = none := by
  intro z
  unfold scalarItem at h ⊢
  split_ifs at h ⊢ <;> simp_all

theorem scalarItem_eq_none (tag : Char) (x : List Char)
    (h1 : ¬ tag = '+') (h2 : ¬ tag = '-') (h3 : ¬ tag = ':')
    (h4 : ¬ tag = ',') (h5 : ¬ tag = '(') (h6 : ¬ tag = '_')
    (h7 : ¬ tag = '#') (h8 : ¬ tag = '$') (h9 : ¬ tag = '=') :
    scalarItem tag x = none := by
  unfold scalarItem
  rw [if_neg h1, if_neg h2, if_neg h3, if_neg h4, if_neg h5, if_neg h6,
    if_neg h7, if_neg h8, if_neg h9]

theorem scalarItem_append_done (tag : Char) (x y : List Char) (v : RValue)
    (r2 : List Char) (h : scalarItem tag x = some (.done v r2)) :
    scalarItem tag (x ++ y) = some (.done v (r2 ++ y)) := by
  by_cases h1 : tag = '+'
  · subst h1
    exact congrArg some (lineItem_append_done RValue.status x y v r2 (Option.some.inj h))
  by_cases h2 : tag = '-'
  · subst h2
    exact congrArg some (lineItem_append_done RValue.errv x y v r2 (Option.some.inj h))
  by_cases h3 : tag = ':'
  · subst h3
    exact congrArg some (intItem_append_done x y v r2 (Option.some.inj h))
  by_cases h4 : tag = ','
  · subst h4
    exact congrArg some (lineItem_append_done RValue.dbl x y v r2 (Option.some.inj h))
  by_cases h5 : tag = '('
  · subst h5
    exact congrArg some (lineItem_append_done RValue.bignum x y v r2 (Option.some.inj h))
  by_cases h6 : tag = '_'
  · subst h6
    exact congrArg some (nilItem_append_done x y v r2 (Option.some.inj h))
  by_cases h7 : tag = '#'
  · subst h7
    exact congrArg some (boolItem_append_done x y v r2 (Option.some.inj h))
  by_cases h8 : tag = '$'
  · subst h8
    exact congrArg some (bulkItem_append_done x y v r2 (Option.some.inj h))
  by_cases h9 : tag = '='
  · subst h9
    exact congrArg some (verbItem_append_done x y v r2 (Option.some.inj h))
  rw [scalarItem_eq_none tag x h1 h2 h3 h4 h5 h6 h7 h8 h9] at h
  exact Option.noConfusion h

theorem scalarItem_append_fail (tag : Char) (x y : List Char) (e : Nat)
    (h : scalarItem tag x = some (.fail e)) :
    scalarItem tag (x ++ y) = some (.fail e) := by
  by_cases h1 : tag = '+'
  · subst h1
    exact absurd (Option.some.inj h) (lineItem_not_fail RValue.status x e)
  by_cases h2 : tag = '-'
  · subst h2
    exact absurd (Option.some.inj h) (lineItem_not_fail RValue.errv x e)
  by_cases h3 : tag = ':'
  · subst h3
    exact congrArg some (intItem_append_fail x y e (Option.some.inj h))
  by_cases h4 : tag = ','
  · subst h4
    exact absurd (Option.some.inj h) (lineItem_not_fail RValue.dbl x e)
  by_cases h5 : tag = '('
  · subst h5
    exact absurd (Option.some.inj h) (lineItem_not_fail RValue.bignum x e)
  by_cases h6 : tag = '_'
  · subst h6
    exact absurd (Option.some.inj h) (nilItem_not_fail x e)
  by_cases h7 : tag = '#'
  · subst h7
    exact congrArg some (boolItem_append_fail x y e (Option.some.inj h))
  by_cases h8 : tag = '$'
  · subst h8
    exact congrArg some (bulkItem_append_fail x y e (Option.some.inj h))
  by_cases h9 : tag = '='
  · subst h9
    exact congrArg some (verbItem_append_fail x y e (Option.some.inj h))
  rw [scalarItem_eq_none tag x h1 h2 h3 h4 h5 h6 h7 h8 h9] at h
  exact Option.noConfusion h

theorem scalarItem_done_length (tag : Char) (x : List Char) (v : RValue)
    (r2 : List Char) (h : scalarItem tag x = some (.done v r2)) :
    r2.length ≤ x.length := by
  by_cases h1 : tag = '+'
  · subst h1
    exact lineItem_done_length RValue.status x v r2 (Option.some.inj h)
  by_cases h2 : tag = '-'
  · subst h2
    exact lineItem_done_length RValue.errv x v r2 (Option.some.inj h)
  by_cases h3 : tag = ':'
  · subst h3
    exact intItem_done_length x v r2 (Option.some.inj h)
  by_cases h4 : tag = ','
  · subst h4
    exact lineItem_done_length RValue.dbl x v r2 (Option.some.inj h)
  by_cases h5 : tag = '('
  · subst h5
    exact lineItem_done_length RValue.bignum x v r2 (Option.some.inj h)
  by_cases h6 : tag = '_'
  · subst h6
    exact nilItem_done_length x v r2 (Option.some.inj h)
  by_cases h7 : tag = '#'
  · subst h7
    exact boolItem_done_length x v r2 (Option.some.inj h)
  by_cases h8 : tag = '$'
  · subst h8
    exact bulkItem_done_length x v r2 (Option.some.inj h)
  by_cases h9 : tag = '='
  · subst h9
    exact verbItem_done_length x v r2 (Option.some.inj h)
  rw [scalarItem_eq_none tag x h1 h2 h3 h4 h5 h6 h7 h8 h9] at h
  exact Option.noConfusion h

/-! ## Stream lemmas: consumption, fuel, append -/

theorem parse_done_length (f : Nat) :
    (∀ maxE x v r, parseValue maxE f x = .done v r → r.length < x.length)
    ∧ (∀ maxE n x vs r, parseMulti maxE f n x = .done vs r → r.length ≤ x.length) := by
  induction f with
  | zero =>
    constructor
    · intro maxE x v r h
      rw [parseValue] at h
      exact PR.noConfusion h
    · intro maxE n x vs r h
      rw [parseMulti] at h
      exact PR.noConfusion h
  | succ f ih =>
    obtain ⟨ihV, ihM⟩ := ih
    constructor
    · intro maxE x v r h
      cases x with
      | nil =>
        rw [parseValue] at h
        exact PR.noConfusion h
      | cons tag rest =>
        rw [parseValue] at h
        cases hsc : scalarItem tag rest with
        | some res =>
          simp only [hsc] at h
          rw [h] at hsc
          have hlen := scalarItem_done_length tag rest v r hsc
          simp only [List.length_cons]
          omega
        | none =>
          simp only [hsc] at h
          cases hagg : aggOf tag with
          | none =>
            simp only [hagg] at h
            exact PR.noConfusion h
          | some pr =>
            obtain ⟨mk, mult⟩ := pr
            simp only [hagg] at h
            cases htl : takeLine rest with
            | none =>
              simp only [htl] at h
              exact PR.noConfusion h
            | some p =>
              obtain ⟨l, r0⟩ := p
              simp only [htl] at h
              have hlen0 := takeLine_length rest l r0 htl
              cases hpil : parseIntLine l with
              | none =>
                simp only [hpil] at h
                exact PR.noConfusion h
              | some nn =>
                simp only [hpil] at h
                by_cases hg1 : nn = -1
                · rw [if_pos hg1] at h
                  cases h
                  simp only [List.length_cons]
                  omega
                · rw [if_neg hg1] at h
                  by_cases hg2 : nn < -1
                  · rw [if_pos hg2] at h
                    exact PR.noConfusion h
                  · rw [if_neg hg2] at h
                    by_cases hg3 : maxE < nn
                    · rw [if_pos hg3] at h
                      exact PR.noConfusion h
                    · rw [if_neg hg3] at h
                      cases hm : parseMulti maxE f (mult * nn.toNat) r0 with
                      | done elems rest2 =>
                        simp only [hm] at h
                        cases h
                        have hrec := ihM maxE (mult * nn.toNat) r0 elems r hm
                        simp only [List.length_cons]
                        omega
                      | more =>
                        simp only [hm] at h
                        exact PR.noConfusion h
                      | fail e =>
                        simp only [hm] at h
                        exact PR.noConfusion h
    · intro maxE n x vs r h
      cases n with
      | zero =>
        rw [parseMulti] at h
        cases h
        exact Nat.le_refl _
      | succ m =>
        rw [parseMulti] at h
        cases hv : parseValue maxE f x with
        | done v1 r1 =>
          simp only [hv] at h
          cases hm : parseMulti maxE f m r1 with
          | done vs2 r2 =>
            simp only [hm] at h
            cases h
            have l1 := ihV maxE x v1 r1 hv
            have l2 := ihM maxE m r1 vs2 r hm
            omega
          | more =>
            simp only [hm] at h
            exact PR.noConfusion h
          | fail e =>
            simp only [hm] at h
            exact PR.noConfusion h
        | more =>
          simp only [hv] at h
          exact PR.noConfusion h
        | fail e =>
          simp only [hv] at h
          exact PR.noConfusion h

theorem parse_fuel_succ (f : Nat) :
    (∀ maxE x res, res ≠ .more → parseValue maxE f x = res →
      parseValue maxE (f + 1) x = res)
    ∧ (∀ maxE n x res, res ≠ .more → parseMulti maxE f n x = res →
      parseMulti maxE (f + 1) n x = res) := by
  induction f with
  | zero =>
    constructor
    · intro maxE x res hres h
      rw [parseValue] at h
      exact absurd h.symm hres
    · intro maxE n x res hres h
      rw [parseMulti] at h
      exact absurd h.symm hres
  | succ f ih =>
    obtain ⟨ihV, ihM⟩ := ih
    constructor
    · intro maxE x res hres h
      cases x with
      | nil =>
        rw [parseValue] at h
        exact absurd h.symm hres
      | cons tag rest =>
        rw [parseValue] at h
        rw [parseValue]
        cases hsc : scalarItem tag rest with
        | some r0 =>
          simp only [hsc] at h ⊢
          exact h
        | none =>
          simp only [hsc] at h ⊢
          cases hagg : aggOf tag with
          | none =>
            simp only [hagg] at h ⊢
            exact h
          | some pr =>
            obtain ⟨mk, mult⟩ := pr
            simp only [hagg] at h ⊢
            cases htl : takeLine rest with
            | none =>
              simp only [htl] at h ⊢
              exact absurd h.symm hres
            | some p =>
              obtain ⟨l, r0⟩ := p
              simp only [htl] at h ⊢
              cases hpil : parseIntLine l with
              | none =>
                simp only [hpil] at h ⊢
                exact h
              | some nn =>
                simp only [hpil] at h ⊢
                by_cases hg1 : nn = -1
                · rw [if_pos hg1] at h ⊢
                  exact h
                · rw [if_neg hg1] at h ⊢
                  by_cases hg2 : nn < -1
                  · rw [if_pos hg2] at h ⊢
                    exact h
                  · rw [if_neg hg2] at h ⊢
                    by_cases hg3 : maxE < nn
                    · rw [if_pos hg3] at h ⊢
                      exact h
                    · rw [if_neg hg3] at h ⊢
                      cases hm : parseMulti maxE f (mult * nn.toNat) r0 with
                      | done elems rest2 =>
                        have hM := ihM maxE (mult * nn.toNat) r0
                          (.done elems rest2) (by simp) hm
                        simp only [hm] at h
                        simp only [hM]
                        exact h
                      | more =>
                        simp only [hm] at h
                        exact absurd h.symm hres
                      | fail e =>
                        have hM := ihM maxE (mult * nn.toNat) r0
                          (.fail e) (by simp) hm
                        simp only [hm] at h
                        simp only [hM]
                        exact h
    · intro maxE n x res hres h
      cases n with
      | zero =>
        rw [parseMulti] at h
        rw [parseMulti]
        exact h
      | succ m =>
        rw [parseMulti] at h
        rw [parseMulti]
        cases hv : parseValue maxE f x with
        | done v1 r1 =>
          have hV := ihV maxE x (.done v1 r1) (by simp) hv
          simp only [hv] at h
          simp only [hV]
          cases hm : parseMulti maxE f m r1 with
          | done vs2 r2 =>
            have hM := ihM maxE m r1 (.done vs2 r2) (by simp) hm
            simp only [hm] at h
            simp only [hM]
            exact h
          | more =>
            simp only [hm] at h
            exact absurd h.symm hres
          | fail e =>
            have hM := ihM maxE m r1 (.fail e) (by simp) hm
            simp only [hm] at h
            simp only [hM]
            exact h
        | more =>
          simp only [hv] at h
          exact absurd h.symm hres
        | fail e =>
          have hV := ihV maxE x (.fail e) (by simp) hv
          simp only [hv] at h
          simp only [hV]
          exact h

theorem parseValue_fuel_le (f g : Nat) (hfg : f ≤ g) (maxE : Int)
    (x : List Char) (res : PR RValue) (hres : res ≠ .more)
    (h : parseValue maxE f x = res) : parseValue maxE g x = res := by
  induction hfg with
  | refl => exact h
  | step hk ih => exact (parse_fuel_succ _).1 maxE x res hres ih

theorem parse_append (f : Nat) :
    (∀ maxE x y v r, parseValue maxE f x = .done v r →
      parseValue maxE f (x ++ y) = .done v (r ++ y))
    ∧ (∀ maxE x y e, parseValue maxE f x = .fail e →
      parseValue maxE f (x ++ y) = .fail e)
    ∧ (∀ maxE n x y vs r, parseMulti maxE f n x = .done vs r →
      parseMulti maxE f n (x ++ y) = .done vs (r ++ y))
    ∧ (∀ maxE n x y e, parseMulti maxE f n x = .fail e →
      parseMulti maxE f n (x ++ y) = .fail e) := by
  induction f with
  | zero =>
    refine ⟨?_, ?_, ?_, ?_⟩
    · intro maxE x y v r h
      rw [parseValue] at h
      exact PR.noConfusion h
    · intro maxE x y e h
      rw [parseValue] at h
      exact PR.noConfusion h
    · intro maxE n x y vs r h
      rw [parseMulti] at h
      exact PR.noConfusion h
    · intro maxE n x y e h
      rw [parseMulti] at h
      exact PR.noConfusion h
  | succ f ih =>
    obtain ⟨ihVd, ihVf, ihMd, ihMf⟩ := ih
    have hVcore : ∀ maxE tag rest y res, res ≠ .more →
        parseValue maxE (f + 1) (tag :: rest) = res →
        parseValue maxE (f + 1) (tag :: (rest ++ y))
          = (match res with
            | .done v r => .done v (r ++ y)
            | .more => .more
            | .fail e => .fail e) := by
      intro maxE tag rest y res hres h
      rw [parseValue] at h
      rw [parseValue]
      cases hsc : scalarItem tag rest with
      | some r0 =>
        simp only [hsc] at h
        subst h
        cases r0 with
        | done v r =>
          simp only [scalarItem_append_done tag rest y v r hsc]
        | more => exact absurd rfl hres
        | fail e =>
          simp only [scalarItem_append_fail tag rest y e hsc]
      | none =>
        have hsc' := scalarItem_none tag rest hsc (rest ++ y)
        simp only [hsc] at h
        simp only [hsc']
        cases hagg : aggOf tag with
        | none =>
          simp only [hagg] at h ⊢
          subst h
          rfl
        | some pr =>
          obtain ⟨mk, mult⟩ := pr
          simp only [hagg] at h ⊢
          cases htl : takeLine rest with
          | none =>
            simp only [htl] at h
            exact absurd h.symm hres
          | some p =>
            obtain ⟨l, r0⟩ := p
            simp only [htl] at h
            simp only [takeLine_append rest y l r0 htl]
            cases hpil : parseIntLine l with
            | none =>
              simp only [hpil] at h ⊢
              subst h
              rfl
            | some nn =>
              simp only [hpil] at h ⊢
              by_cases hg1 : nn = -1
              · rw [if_pos hg1] at h ⊢
                subst h
                rfl
              · rw [if_neg hg1] at h ⊢
                by_cases hg2 : nn < -1
                · rw [if_pos hg2] at h ⊢
                  subst h
                  rfl
                · rw [if_neg hg2] at h ⊢
                  by_cases hg3 : maxE < nn
                  · rw [if_pos hg3] at h ⊢
                    subst h
                    rfl
                  · rw [if_neg hg3] at h ⊢
                    cases hm : parseMulti maxE f (mult * nn.toNat) r0 with
                    | done elems rest2 =>
                      simp only [hm] at h
                      subst h
                      simp only [ihMd maxE (mult * nn.toNat) r0 y elems rest2 hm]
                    | more =>
                      simp only [hm] at h
                      exact absurd h.symm hres
                    | fail e =>
                      simp only [hm] at h
                      subst h
                      simp only [ihMf maxE (mult * nn.toNat) r0 y e hm]
    have hMcore : ∀ maxE n x y res, res ≠ .more →
        parseMulti maxE (f + 1) n x = res →
        parseMulti maxE (f + 1) n (x ++ y)
          = (match res with
            | .done vs r => .done vs (r ++ y)
            | .more => .more
            | .fail e => .fail e) := by
      intro maxE n x y res hres h
      cases n with
      | zero =>
        rw [parseMulti] at h
        rw [parseMulti]
        subst h
        rfl
      | succ m =>
        rw [parseMulti] at h
        rw [parseMulti]
        cases hv : parseValue maxE f x with
        | done v1 r1 =>
          simp only [hv] at h
          simp only [ihVd maxE x y v1 r1 hv]
          cases hm : parseMulti maxE f m r1 with
          | done vs2 r2 =>
            simp only [hm] at h
            subst h
            simp only [ihMd maxE m r1 y vs2 r2 hm]
          | more =>
            simp only [hm] at h
            exact absurd h.symm hres
          | fail e =>
            simp only [hm] at h
            subst h
            simp only [ihMf maxE m r1 y e hm]
        | more =>
          simp only [hv] at h
          exact absurd h.symm hres
        | fail e =>
          simp only [hv] at h
          subst h
          simp only [ihVf maxE x y e hv]
    refine ⟨?_, ?_, ?_, ?_⟩
    · intro maxE x y v r h
      cases x with
      | nil =>
        rw [parseValue] at h
        exact PR.noConfusion h
      | cons tag rest =>
        simp only [List.cons_append]
        exact hVcore maxE tag rest y (.done v r) (by simp) h
    · intro maxE x y e h
      cases x with
      | nil =>
        rw [parseValue] at h
        exact PR.noConfusion h
      | cons tag rest =>
        simp only [List.cons_append]
        exact hVcore maxE tag rest y (.fail e) (by simp) h
    · intro maxE n x y vs r h
      exact hMcore maxE n x y (.done vs r) (by simp) h
    · intro maxE n x y e h
      exact hMcore maxE n x y (.fail e) (by simp) h

/-! ## Drain lemmas -/

theorem obsEq_refl (a : RedictReader) : obsEq a a :=
  ⟨rfl, fun _ => rfl⟩

theorem obsEq_symm {a b : RedictReader} (h : obsEq a b) : obsEq b a := by
  obtain ⟨h1, h2⟩ := h
  refine ⟨h1.symm, fun hb => ?_⟩
  have ha : a.err = 0 := h1.trans hb
  exact (h2 ha).symm

theorem obsEq_trans {a b c : RedictReader} (h1 : obsEq a b) (h2 : obsEq b c) :
    obsEq a c := by
  obtain ⟨h11, h12⟩ := h1
  obtain ⟨h21, h22⟩ := h2
  refine ⟨h11.trans h21, fun ha => ?_⟩
  have hb : b.err = 0 := by rw [← h11]; exact ha
  exact (h12 ha).trans (h22 hb)

theorem redictReaderGetReply_err (r : RedictReader) (h : r.err ≠ 0) :
    redictReaderGetReply r = (none, r) := by
  unfold redictReaderGetReply
  rw [if_pos h]

theorem getReply_some_buf (r : RedictReader) (v : RValue) (r1 : RedictReader)
    (h : redictReaderGetReply r = (some v, r1)) :
    r1.buf.length < r.buf.length ∧ r1.err = r.err ∧ r1.maxelements = r.maxelements := by
  by_cases he : r.err = 0
  · rw [redictReaderGetReply_ok r he] at h
    cases hp : parseValue r.maxelements (readerFuel r) r.buf with
    | done v2 rest =>
      simp only [hp] at h
      cases h
      exact ⟨(parse_done_length _).1 _ _ _ _ hp, rfl, rfl⟩
    | more =>
      simp only [hp] at h
      simp at h
    | fail e =>
      simp only [hp] at h
      simp at h
  · rw [redictReaderGetReply_err r he] at h
    simp at h

theorem getReply_mk (x : List Char) (maxE : Int) :
    redictReaderGetReply ⟨0, x, maxE⟩
      = (match parseValue maxE (2 * x.length + 2) x with
        | .done v rest => (some v, (⟨0, rest, maxE⟩ : RedictReader))
        | .more => (none, (⟨0, x, maxE⟩ : RedictReader))
        | .fail e => (none, (⟨e, x, maxE⟩ : RedictReader))) := by
  cases hp : parseValue maxE (2 * x.length + 2) x <;>
    simp [redictReaderGetReply, readerFuel, hp]

theorem drainFuel_congr (L : Nat) :
    ∀ r : RedictReader, r.buf.length ≤ L → ∀ k, r.buf.length < k →
      drainFuel k r = redictDrain r := by
  induction L with
  | zero =>
    intro r hr k hk
    cases k with
    | zero => omega
    | succ k' =>
      unfold redictDrain
      rw [drainFuel]
      rw [drainFuel]
      cases hg : redictReaderGetReply r with
      | mk o r1 =>
        cases o with
        | none => simp only [hg]
        | some v =>
          have := (getReply_some_buf r v r1 hg).1
          omega
  | succ L ihL =>
    intro r hr k hk
    cases k with
    | zero => omega
    | succ k' =>
      unfold redictDrain
      rw [drainFuel]
      rw [drainFuel]
      cases hg : redictReaderGetReply r with
      | mk o r1 =>
        cases o with
        | none => simp only [hg]
        | some v =>
          simp only [hg]
          have hlt := (getReply_some_buf r v r1 hg).1
          have e1 : drainFuel k' r1 = redictDrain r1 := ihL r1 (by omega) k' (by omega)
          have e2 : drainFuel r.buf.length r1 = redictDrain r1 :=
            ihL r1 (by omega) r.buf.length (by omega)
          rw [e1, e2]

theorem drainFuel_ge (r : RedictReader) (k : Nat) (hk : r.buf.length < k) :
    drainFuel k r = redictDrain r :=
  drainFuel_congr r.buf.length r (Nat.le_refl _) k hk

theorem redictDrain_some (r : RedictReader) (v : RValue) (r1 : RedictReader)
    (h : redictReaderGetReply r = (some v, r1)) :
    redictDrain r = (v :: (redictDrain r1).1, (redictDrain r1).2) := by
  have hlt := (getReply_some_buf r v r1 h).1
  unfold redictDrain
  rw [drainFuel]
  simp only [h]
  rw [drainFuel_ge r1 r.buf.length hlt]
  rfl

theorem redictDrain_none (r r1 : RedictReader)
    (h : redictReaderGetReply r = (none, r1)) :
    redictDrain r = ([], r1) := by
  unfold redictDrain
  rw [drainFuel]
  simp only [h]

theorem redictDrain_err (r : RedictReader) (h : r.err ≠ 0) :
    redictDrain r = ([], r) :=
  redictDrain_none r r (redictReaderGetReply_err r h)

theorem getReply_none_stable (r r1 : RedictReader)
    (h : redictReaderGetReply r = (none, r1)) :
    redictReaderGetReply r1 = (none, r1) := by
  by_cases he : r.err = 0
  · rw [redictReaderGetReply_ok r he] at h
    cases hp : parseValue r.maxelements (readerFuel r) r.buf with
    | done v rest =>
      simp only [hp] at h
      simp at h
    | more =>
      simp only [hp] at h
      cases h
      rw [redictReaderGetReply_ok r he]
      simp only [hp]
    | fail e =>
      simp only [hp] at h
      cases h
      by_cases hee : e = 0
      · subst hee
        have hr : ({ r with err := 0 } : RedictReader) = r := by
          obtain ⟨er, bu, mx⟩ := r
          simp only at he
          subst he
          rfl
        rw [hr]
        rw [redictReaderGetReply_ok r he]
        simp only [hp, hr]
      · exact redictReaderGetReply_err _ (by simpa using hee)
  · rw [redictReaderGetReply_err r he] at h
    cases h
    exact redictReaderGetReply_err r he

theorem drain_quiescent (L : Nat) :
    ∀ r : RedictReader, r.buf.length ≤ L →
      redictReaderGetReply (redictDrain r).2 = (none, (redictDrain r).2) := by
  induction L with
  | zero =>
    intro r hr
    cases hg : redictReaderGetReply r with
    | mk o r1 =>
      cases o with
      | some v =>
        have := (getReply_some_buf r v r1 hg).1
        omega
      | none =>
        rw [redictDrain_none r r1 hg]
        exact getReply_none_stable r r1 hg
  | succ L ihL =>
    intro r hr
    cases hg : redictReaderGetReply r with
    | mk o r1 =>
      cases o with
      | some v =>
        rw [redictDrain_some r v r1 hg]
        have := (getReply_some_buf r v r1 hg).1
        exact ihL r1 (by omega)
      | none =>
        rw [redictDrain_none r r1 hg]
        exact getReply_none_stable r r1 hg

theorem drain_quiescent_all (r : RedictReader) :
    redictReaderGetReply (redictDrain r).2 = (none, (redictDrain r).2) :=
  drain_quiescent r.buf.length r (Nat.le_refl _)

/-- Core composition: draining the concatenation `x ++ y` from a clean
reader produces exactly the replies of draining `x` followed by those of
draining the leftover-plus-`y`, with observationally equal final
states. -/
theorem drain_append (L : Nat) :
    ∀ x : List Char, x.length ≤ L → ∀ (y : List Char) (maxE : Int),
      (redictDrain ⟨0, x ++ y, maxE⟩).1
        = (redictDrain ⟨0, x, maxE⟩).1
          ++ (redictDrain (redictReaderFeed (redictDrain ⟨0, x, maxE⟩).2 y)).1
      ∧ obsEq (redictDrain ⟨0, x ++ y, maxE⟩).2
          (redictDrain (redictReaderFeed (redictDrain ⟨0, x, maxE⟩).2 y)).2 := by
  induction L with
  | zero =>
    intro x hx y maxE
    have hx0 : x = [] := List.length_eq_zero.mp (by omega)
    subst hx0
    have hg : redictReaderGetReply ⟨0, ([] : List Char), maxE⟩ = (none, ⟨0, [], maxE⟩) := by
      rw [getReply_mk]
      simp only [parseValue_nil]
    rw [redictDrain_none _ _ hg]
    have hfeed : redictReaderFeed ⟨0, ([] : List Char), maxE⟩ y = ⟨0, y, maxE⟩ := by
      rw [redictReaderFeed_of_ok _ _ rfl]
      rfl
    rw [hfeed]
    simp only [List.nil_append]
    exact ⟨by simp, obsEq_refl _⟩
  | succ L ihL =>
    intro x hx y maxE
    cases hp : parseValue maxE (2 * x.length + 2) x with
    | done v rest =>
      have hg : redictReaderGetReply ⟨0, x, maxE⟩ = (some v, ⟨0, rest, maxE⟩) := by
        rw [getReply_mk]
        simp only [hp]
      have hlen : rest.length < x.length := (parse_done_length _).1 maxE x v rest hp
      have hpA : parseValue maxE (2 * x.length + 2) (x ++ y) = .done v (rest ++ y) :=
        (parse_append _).1 maxE x y v rest hp
      have hp2 : parseValue maxE (2 * (x ++ y).length + 2) (x ++ y) = .done v (rest ++ y) :=
        parseValue_fuel_le _ _ (by simp [List.length_append]) maxE _ _ (by simp) hpA
      have hg2 : redictReaderGetReply ⟨0, x ++ y, maxE⟩ = (some v, ⟨0, rest ++ y, maxE⟩) := by
        rw [getReply_mk]
        simp only [hp2]
      rw [redictDrain_some _ _ _ hg, redictDrain_some _ _ _ hg2]
      obtain ⟨ih1, ih2⟩ := ihL rest (by omega) y maxE
      constructor
      · simp only [List.cons_append]
        rw [ih1]
      · exact ih2
    | more =>
      have hg : redictReaderGetReply ⟨0, x, maxE⟩ = (none, ⟨0, x, maxE⟩) := by
        rw [getReply_mk]
        simp only [hp]
      rw [redictDrain_none _ _ hg]
      have hfeed : redictReaderFeed ⟨0, x, maxE⟩ y = ⟨0, x ++ y, maxE⟩ := by
        rw [redictReaderFeed_of_ok _ _ rfl]
      rw [hfeed]
      exact ⟨by simp, obsEq_refl _⟩
    | fail e =>
      have hg : redictReaderGetReply ⟨0, x, maxE⟩ = (none, ⟨e, x, maxE⟩) := by
        rw [getReply_mk]
        simp only [hp]
      rw [redictDrain_none _ _ hg]
      by_cases he : e = 0
      · subst he
        have hfeed : redictReaderFeed ⟨0, x, maxE⟩ y = ⟨0, x ++ y, maxE⟩ := by
          rw [redictReaderFeed_of_ok _ _ rfl]
        rw [hfeed]
        exact ⟨by simp, obsEq_refl _⟩
      · have hne : (⟨e, x, maxE⟩ : RedictReader).err ≠ 0 := by simpa using he
        rw [redictReaderFeed_of_err _ _ hne, redictDrain_err _ hne]
        have hpA : parseValue maxE (2 * x.length + 2) (x ++ y) = .fail e :=
          (parse_append _).2.1 maxE x y e hp
        have hp2 : parseValue maxE (2 * (x ++ y).length + 2) (x ++ y) = .fail e :=
          parseValue_fuel_le _ _ (by simp [List.length_append]) maxE _ _ (by simp) hpA
        have hg2 : redictReaderGetReply ⟨0, x ++ y, maxE⟩ = (none, ⟨e, x ++ y, maxE⟩) := by
          rw [getReply_mk]
          simp only [hp2]
        rw [redictDrain_none _ _ hg2]
        exact ⟨rfl, ⟨rfl, fun hc => absurd hc he⟩⟩

/-- Composition at an arbitrary reader: feeding `b ++ y` and draining
equals feeding `b`, draining, then feeding `y` and draining —
reply-for-reply, with observationally equal final states. -/
theorem drain_feed_append (r : RedictReader) (b y : List Char) :
    (redictDrain (redictReaderFeed r (b ++ y))).1
      = (redictDrain (redictReaderFeed r b)).1
        ++ (redictDrain (redictReaderFeed (redictDrain (redictReaderFeed r b)).2 y)).1
    ∧ obsEq (redictDrain (redictReaderFeed r (b ++ y))).2
        (redictDrain (redictReaderFeed (redictDrain (redictReaderFeed r b)).2 y)).2 := by
  obtain ⟨er, buf, maxE⟩ := r
  by_cases he : er = 0
  · subst he
    have h1 : redictReaderFeed ⟨0, buf, maxE⟩ (b ++ y) = ⟨0, (buf ++ b) ++ y, maxE⟩ := by
      rw [redictReaderFeed_of_ok _ _ rfl]
      simp [List.append_assoc]
    have h2 : redictReaderFeed ⟨0, buf, maxE⟩ b = ⟨0, buf ++ b, maxE⟩ := by
      rw [redictReaderFeed_of_ok _ _ rfl]
    rw [h1, h2]
    exact drain_append (buf ++ b).length (buf ++ b) (Nat.le_refl _) y maxE
  · have hne : (⟨er, buf, maxE⟩ : RedictReader).err ≠ 0 := by simpa using he
    rw [redictReaderFeed_of_err _ _ hne, redictReaderFeed_of_err _ _ hne,
      redictDrain_err _ hne]
    rw [redictReaderFeed_of_err _ _ hne, redictDrain_err _ hne]
    exact ⟨rfl, obsEq_refl _⟩

/-! ## Chunked reads equal batch reads -/

theorem drainChunks_nil (r : RedictReader) : drainChunks r [] = ([], r) := rfl

theorem drainChunks_cons (r : RedictReader) (b : List Char)
    (bs : List (List Char)) :
    drainChunks r (b :: bs)
      = ((redictDrain (redictReaderFeed r b)).1
          ++ (drainChunks (redictDrain (redictReaderFeed r b)).2 bs).1,
        (drainChunks (redictDrain (redictReaderFeed r b)).2 bs).2) := rfl

theorem redictReaderFeed_nil (r : RedictReader) : redictReaderFeed r [] = r := by
  by_cases he : r.err = 0
  · rw [redictReaderFeed_of_ok _ _ he]
    simp
  · exact redictReaderFeed_of_err _ _ he

/-- Chunked processing (feed, drain, feed, drain, ...) yields exactly the
replies of one batch feed-then-drain of the joined bytes, starting from
any quiescent reader, with observationally equal final states. -/
theorem drainChunks_eq_batch (chunks : List (List Char)) :
    ∀ r : RedictReader, redictReaderGetReply r = (none, r) →
      (drainChunks r chunks).1 = (redictDrain (redictReaderFeed r chunks.flatten)).1
      ∧ obsEq (drainChunks r chunks).2
          (redictDrain (redictReaderFeed r chunks.flatten)).2 := by
  induction chunks with
  | nil =>
    intro r hq
    rw [drainChunks_nil]
    simp only [List.flatten_nil]
    rw [redictReaderFeed_nil, redictDrain_none _ _ hq]
    exact ⟨rfl, obsEq_refl _⟩
  | cons c cs ih =>
    intro r hq
    rw [drainChunks_cons]
    simp only [List.flatten_cons]
    obtain ⟨hda1, hda2⟩ := drain_feed_append r c cs.flatten
    have hq1 : redictReaderGetReply (redictDrain (redictReaderFeed r c)).2
        = (none, (redictDrain (redictReaderFeed r c)).2) := drain_quiescent_all _
    obtain ⟨ih1, ih2⟩ := ih (redictDrain (redictReaderFeed r c)).2 hq1
    constructor
    · dsimp only
      rw [ih1]
      exact hda1.symm
    · dsimp only
      exact obsEq_trans ih2 (obsEq_symm hda2)

/-! ## Async read dispatch -/

theorem enqueueAll_spec (ps : List (List Char × Callback)) :
    ∀ ac : RedictAsyncContext,
      (enqueueAll ac ps).replies = ac.replies ++ ps.map Prod.snd
      ∧ (enqueueAll ac ps).rd = ac.rd := by
  induction ps with
  | nil =>
    intro ac
    simp [enqueueAll]
  | cons p ps ih =>
    intro ac
    have hfold : enqueueAll ac (p :: ps)
        = enqueueAll (redictAsyncFormattedCommand true true ac p.1 p.2).2 ps := rfl
    have hstepR : ((redictAsyncFormattedCommand true true ac p.1 p.2).2).replies
        = ac.replies ++ [p.2] := rfl
    have hstepD : ((redictAsyncFormattedCommand true true ac p.1 p.2).2).rd
        = ac.rd := rfl
    rw [hfold]
    obtain ⟨ih1, ih2⟩ := ih (redictAsyncFormattedCommand true true ac p.1 p.2).2
    rw [ih1, ih2, hstepR, hstepD]
    simp

theorem processReads_nil (ac : RedictAsyncContext) :
    processReads ac [] = (ac, []) := rfl

theorem processReads_cons (ac : RedictAsyncContext) (b : List Char)
    (bs : List (List Char)) :
    processReads ac (b :: bs)
      = ((processReads (redictAsyncHandleRead ac b).1 bs).1,
        (redictAsyncHandleRead ac b).2
          ++ (processReads (redictAsyncHandleRead ac b).1 bs).2) := rfl

/-- The invocation trace of successive reads pairs the front of the
pending-callback FIFO with the decoded replies in order. -/
theorem processReads_trace (frags : List (List Char)) :
    ∀ ac : RedictAsyncContext,
      (drainChunks ac.rd frags).1.length ≤ ac.replies.length →
      (processReads ac frags).2 = ac.replies.zip (drainChunks ac.rd frags).1 := by
  induction frags with
  | nil =>
    intro ac h
    rw [processReads_nil, drainChunks_nil]
    simp
  | cons b bs ih =>
    intro ac h
    rw [processReads_cons]
    have hA : ((redictAsyncHandleRead ac b).1).rd
        = (redictDrain (redictReaderFeed ac.rd b)).2 := rfl
    have hB : ((redictAsyncHandleRead ac b).1).replies
        = ac.replies.drop (redictDrain (redictReaderFeed ac.rd b)).1.length := rfl
    have hHR2 : (redictAsyncHandleRead ac b).2
        = (ac.replies.take (redictDrain (redictReaderFeed ac.rd b)).1.length).zip
            (redictDrain (redictReaderFeed ac.rd b)).1 := rfl
    have htot : (redictDrain (redictReaderFeed ac.rd b)).1.length
        + (drainChunks (redictDrain (redictReaderFeed ac.rd b)).2 bs).1.length
        ≤ ac.replies.length := by
      rw [drainChunks_cons] at h
      simpa [List.length_append] using h
    have hlen : (drainChunks ((redictAsyncHandleRead ac b).1).rd bs).1.length
        ≤ ((redictAsyncHandleRead ac b).1).replies.length := by
      rw [hA, hB]
      simp only [List.length_drop]
      omega
    have ihh := ih (redictAsyncHandleRead ac b).1 hlen
    rw [ihh, hHR2, hA, hB]
    rw [drainChunks_cons]
    dsimp only
    have hqsplit : ac.replies
        = ac.replies.take (redictDrain (redictReaderFeed ac.rd b)).1.length
          ++ ac.replies.drop (redictDrain (redictReaderFeed ac.rd b)).1.length :=
      (List.take_append_drop _ _).symm
    conv_rhs => rw [hqsplit]
    rw [List.zip_append (by rw [List.length_take]; omega)]

/-- C2: after enqueuing N commands with callbacks and then delivering the
bytes of N complete regular replies under any fragmentation across
reads, the registered callbacks are invoked exactly in the order the
commands were enqueued. -/
theorem callbacks_invoked_in_order
    (ps : List (List Char × Callback)) (frags : List (List Char))
    (bytes : List Char) (vs : List RValue)
    (hjoin : frags.flatten = bytes)
    (hbatch : (redictDrain (redictReaderFeed redictReaderCreate bytes)).1 = vs)
    (hN : vs.length = ps.length) :
    (processReads (enqueueAll redictAsyncContextInit ps) frags).2.map Prod.fst
      = ps.map Prod.snd := by
  obtain ⟨hrep, hrd⟩ := enqueueAll_spec ps redictAsyncContextInit
  have hrep' : (enqueueAll redictAsyncContextInit ps).replies = ps.map Prod.snd := by
    rw [hrep]
    rfl
  have hrd' : (enqueueAll redictAsyncContextInit ps).rd = redictReaderCreate := hrd
  have hq : redictReaderGetReply redictReaderCreate = (none, redictReaderCreate) := rfl
  obtain ⟨hb1, _⟩ := drainChunks_eq_batch frags redictReaderCreate hq
  rw [hjoin, hbatch] at hb1
  have hlen : (drainChunks (enqueueAll redictAsyncContextInit ps).rd frags).1.length
      ≤ (enqueueAll redictAsyncContextInit ps).replies.length := by
    rw [hrd', hrep', hb1, List.length_map]
    omega
  have htr := processReads_trace frags (enqueueAll redictAsyncContextInit ps) hlen
  rw [htr, hrd', hb1, hrep']
  exact List.map_fst_zip _ _ (by rw [List.length_map]; omega)

/-- Witness for C2: two integer replies delivered one byte at a time fire
the two callbacks in enqueue order. -/
theorem callbacks_invoked_in_order_witness :
    ((":1\r\n:2\r\n".toList.map fun c => [c]).flatten = ":1\r\n:2\r\n".toList)
    ∧ (redictDrain (redictReaderFeed redictReaderCreate ":1\r\n:2\r\n".toList)).1
        = [RValue.int 1, RValue.int 2]
    ∧ ([RValue.int 1, RValue.int 2].length
        = ([(":1\r\n".toList, 10), (":2\r\n".toList, 20)] : List (List Char × Callback)).length)
    ∧ (processReads
        (enqueueAll redictAsyncContextInit
          [(":1\r\n".toList, 10), (":2\r\n".toList, 20)])
        (":1\r\n:2\r\n".toList.map fun c => [c])).2.map Prod.fst
      = [10, 20] :=
  ⟨rfl, rfl, rfl, by
    have h := callbacks_invoked_in_order
      [(":1\r\n".toList, 10), (":2\r\n".toList, 20)]
      (":1\r\n:2\r\n".toList.map fun c => [c])
      ":1\r\n:2\r\n".toList [RValue.int 1, RValue.int 2] rfl rfl rfl
    simpa using h⟩

/-! ## Disconnect teardown -/

theorem flushErrQueue_eq_map (q : List Callback) :
    flushErrQueue q = q.map Invocation.errCall := by
  induction q with
  | nil => rfl
  | cons c cs ih => simp [flushErrQueue, ih]

/-- C3: disconnecting a context with K pending regular callbacks and M
pending subscription callbacks invokes each of the K+M callbacks exactly
once with an error-carrying reply (every callback's invocation count in
the trace equals its occurrence count in the two queues, and the trace
holds exactly K+M+1 invocations), and afterwards — as the final
invocation — notifies the disconnect callback exactly once. -/
theorem disconnect_invokes_all_once (ac : RedictAsyncContext) :
    (∀ cb, (redictAsyncDisconnect ac).count (Invocation.errCall cb)
        = ac.replies.count cb + ac.subReplies.count cb)
    ∧ (redictAsyncDisconnect ac).count Invocation.discNotify = 1
    ∧ (redictAsyncDisconnect ac).length
        = ac.replies.length + ac.subReplies.length + 1
    ∧ (redictAsyncDisconnect ac).getLast? = some Invocation.discNotify := by
  have hinj : Function.Injective Invocation.errCall := by
    intro a b h
    cases h
    rfl
  refine ⟨?_, ?_, ?_, ?_⟩
  · intro cb
    simp [redictAsyncDisconnect, flushErrQueue_eq_map, List.count_append,
      List.count_map_of_injective _ _ hinj, List.count_cons, List.count_nil]
  · have h0 : ∀ q : List Callback,
        List.count Invocation.discNotify (q.map Invocation.errCall) = 0 := by
      intro q
      rw [List.count_eq_zero]
      simp
    simp [redictAsyncDisconnect, flushErrQueue_eq_map, List.count_append,
      List.count_cons, List.count_nil, h0]
  · simp [redictAsyncDisconnect, flushErrQueue_eq_map]
    omega
  · exact List.getLast?_concat _

/-! ## Command enqueue atomicity -/

/-- C7: a formatted-command enqueue either returns OK having appended the
bytes to the output buffer and pushed the callback onto the regular queue
(everything else untouched), or returns OutOfMemory leaving the context
exactly as it was. -/
theorem formatted_command_atomic (nodeOk bufOk : Bool)
    (ac : RedictAsyncContext) (cmd : List Char) (cb : Callback) :
    ((redictAsyncFormattedCommand nodeOk bufOk ac cmd cb).1 = REDICT_OK
      ∧ (redictAsyncFormattedCommand nodeOk bufOk ac cmd cb).2.obuf = ac.obuf ++ cmd
      ∧ (redictAsyncFormattedCommand nodeOk bufOk ac cmd cb).2.replies = ac.replies ++ [cb]
      ∧ (redictAsyncFormattedCommand nodeOk bufOk ac cmd cb).2.rd = ac.rd
      ∧ (redictAsyncFormattedCommand nodeOk bufOk ac cmd cb).2.subReplies = ac.subReplies)
    ∨ ((redictAsyncFormattedCommand nodeOk bufOk ac cmd cb).1 = REDICT_ERR_OOM
      ∧ (redictAsyncFormattedCommand nodeOk bufOk ac cmd cb).2 = ac) := by
  unfold redictAsyncFormattedCommand
  split
  · exact Or.inl ⟨rfl, rfl, rfl, rfl, rfl⟩
  · exact Or.inr ⟨rfl, rfl⟩

/-! ## Background loop lifecycle -/

/-- C10: stopping the background loop sets the stop flag, joins the loop
thread and releases the handle; the operation is idempotent, and stopping
after the loop already exited on its own reaches the same released
state. -/
theorem stop_loop_thread_spec (s : LoopSys) :
    (s.handleAllocated = true →
      (redis_async_stop_loop_thread s).stopFlag = true
      ∧ (redis_async_stop_loop_thread s).threadLive = false
      ∧ (redis_async_stop_loop_thread s).handleAllocated = false)
    ∧ redis_async_stop_loop_thread (redis_async_stop_loop_thread s)
        = redis_async_stop_loop_thread s
    ∧ (s.handleAllocated = true →
      redis_async_stop_loop_thread (loopSelfExit s)
        = redis_async_stop_loop_thread s) := by
  refine ⟨?_, ?_, ?_⟩
  · intro h
    unfold redis_async_stop_loop_thread
    rw [if_pos h]
    exact ⟨rfl, rfl, rfl⟩
  · by_cases h : s.handleAllocated <;>
      simp [redis_async_stop_loop_thread, h]
  · intro h
    simp [redis_async_stop_loop_thread, loopSelfExit, h]

/-- Witness for C10 at a freshly started loop. -/
theorem stop_loop_thread_spec_witness :
    (LoopSys.mk false true true).handleAllocated = true
    ∧ ((redis_async_stop_loop_thread (LoopSys.mk false true true)).stopFlag = true
      ∧ (redis_async_stop_loop_thread (LoopSys.mk false true true)).threadLive = false
      ∧ (redis_async_stop_loop_thread (LoopSys.mk false true true)).handleAllocated = false)
    ∧ redis_async_stop_loop_thread (redis_async_stop_loop_thread (LoopSys.mk false true true))
        = redis_async_stop_loop_thread (LoopSys.mk false true true)
    ∧ redis_async_stop_loop_thread (loopSelfExit (LoopSys.mk false true true))
        = redis_async_stop_loop_thread (LoopSys.mk false true true) :=
  ⟨rfl,
   (stop_loop_thread_spec (LoopSys.mk false true true)).1 rfl,
   (stop_loop_thread_spec (LoopSys.mk false true true)).2.1,
   (stop_loop_thread_spec (LoopSys.mk false true true)).2.2 rfl⟩

end Redict
